import Mathlib

/-!
Verification of the CainTask task-dependency graph engine.

This file shallowly embeds the pure data-transformation core of the
repository — the graph analysis functions of `src/utils/graphUtils.ts`
(`detectAllCycles`, `areAllParentsCompleted`, `hasIncompleteParent`,
`updateStyles`), the completion-update logic shared by `updateTask` in
`FlowContent` and `EditModal.handleSave`, and the editor state transitions of
`FlowContent` (`saveToLocalStorage`, `undo`, `redo`, `onConnect`,
`deleteSelected`, `handleProjectSwitch`) — and proves properties of the
embedded definitions.

Modelling conventions:
* JS objects used as string-keyed dictionaries become association lists in
  key-insertion order; `Object.keys` ordering (canonical array-index keys in
  ascending numeric order first, then the rest in insertion order) is
  reproduced explicitly.
* JS `Set` values become lists managed by `cons`/`erase`; every addition in
  the source happens under a not-yet-present guard, so `cons` agrees with
  `Set.add` along all executions.
* The recursive `dfs` traversal is embedded with a fuel argument strictly
  larger than the number of node occurrences; the development proves this
  fuel never runs out.
* React `useState` cells become fields of an explicit `EditorState`; an event
  handler becomes a function `EditorState → EditorState`.  Where a handler
  calls `saveToLocalStorage` after queueing state updates, the saved snapshot
  is the render-time (pre-update) one captured by the closure, and the
  embedding threads that pre-update snapshot explicitly.
* Timestamps (`lastSavedAt`), viewport data and `localStorage` side effects
  are presentation/I-O glue outside every claim and are not part of the
  state.
-/

namespace CainTask

/-- Payload of a task node (`TaskNodeData` in `App.tsx`). -/
structure TaskNodeData where
  label : String
  completed : Bool
deriving DecidableEq

/-- Canvas position of a node.  The claims never compute with coordinates, so
they are carried as integers. -/
structure Position where
  x : Int
  y : Int
deriving DecidableEq

/-- The style object `updateStyles` attaches to a task node. -/
structure TaskStyle where
  background : Option String
  border : String
deriving DecidableEq

/-- A task node (`TaskNode = Node<TaskNodeData>` in `App.tsx`). -/
structure TaskNode where
  id : String
  data : TaskNodeData
  position : Position
  style : Option TaskStyle := none
deriving DecidableEq

/-- `MarkerType` of reactflow, as used by the source (`Arrow`/`ArrowClosed`). -/
inductive MarkerKind where
  | arrow
  | arrowClosed
deriving DecidableEq

/-- A `markerEnd` value: marker type plus optional color. -/
structure EdgeMarker where
  kind : MarkerKind
  color : Option String := none
deriving DecidableEq

/-- The style object `updateStyles` attaches to an arrow. -/
structure ArrowStyle where
  stroke : String
  strokeWidth : Nat
deriving DecidableEq

/-- A dependency arrow (`Edge` of reactflow as used by the source). -/
structure Edge where
  id : String
  source : String
  target : String
  type : Option String := none
  markerEnd : Option EdgeMarker := none
  style : Option ArrowStyle := none
deriving DecidableEq

/-! ## `detectAllCycles` (src/utils/graphUtils.ts) -/

/-- One step of building the adjacency object in `detectAllCycles`:
`if (!graph[arrow.source]) graph[arrow.source] = [];
graph[arrow.source].push(arrow.target);`.
The object is an association list in key-insertion order. -/
def addArrowToGraph : List (String × List String) → String → String → List (String × List String)
  | [], src, tgt => [(src, [tgt])]
  | (k, ts) :: rest, src, tgt =>
    if k == src then (k, ts ++ [tgt]) :: rest
    else (k, ts) :: addArrowToGraph rest src tgt

/-- The `arrows.forEach` loop populating the adjacency object. -/
def buildGraph (arrows : List Edge) : List (String × List String) :=
  arrows.foldl (fun g a => addArrowToGraph g a.source a.target) []

/-- `graph[taskId] || []`. -/
def graphLookup (g : List (String × List String)) (k : String) : List String :=
  match g.find? (fun p => p.1 == k) with
  | some p => p.2
  | none => []

/-- A character list is a canonical decimal numeral: a single digit, or a
nonzero digit followed by digits (no leading zeros, no sign, nonempty). -/
def isCanonicalNat : List Char → Bool
  | [] => false
  | [c] => c.isDigit
  | c :: rest => c.isDigit && !(c == '0') && rest.all Char.isDigit

/-- Decimal value of a digit list. -/
def charsToNat (l : List Char) : Nat :=
  l.foldl (fun n c => n * 10 + (c.toNat - 48)) 0

/-- A string is a canonical array-index key (JS property-ordering sense) iff
it is a canonical decimal numeral whose value is below `2^32 - 1`. -/
def arrayIndexKey (s : String) : Option Nat :=
  if isCanonicalNat s.data then
    let n := charsToNat s.data
    if n < 4294967295 then some n else none
  else none

/-- Numeric value used to order array-index keys. -/
def keyVal (s : String) : Nat := (arrayIndexKey s).getD 0

/-- Insertion step of the stable sort of array-index keys. -/
def insertKeyByVal (x : String) : List String → List String
  | [] => [x]
  | y :: ys => if keyVal x ≤ keyVal y then x :: y :: ys else y :: insertKeyByVal x ys

/-- Stable insertion sort of array-index keys by numeric value. -/
def sortKeysByVal (l : List String) : List String := l.foldr insertKeyByVal []

/-- `Object.keys` for the adjacency object: canonical array-index keys in
ascending numeric order first, then the remaining keys in insertion order. -/
def objectKeys (g : List (String × List String)) : List String :=
  let ks := g.map (fun p => p.1)
  sortKeysByVal (ks.filter (fun k => (arrayIndexKey k).isSome)) ++
    ks.filter (fun k => (arrayIndexKey k).isNone)

/-- Mutable state of the `detectAllCycles` traversal: the `visited` and
`recStack` sets and the accumulated set of back-edge arrow ids.  All three
are JS `Set`s, embedded as lists; additions go through `List.insert`, which
is a no-op on a present element, exactly like `Set.add`. -/
structure DfsState where
  visited : List String
  recStack : List String
  cycles : List String
deriving DecidableEq

/-- The `for (const neighbor of neighbors)` loop inside `dfs`: recurse (via
`visitFn`, the one-level-smaller-fuel `dfs`) on unvisited neighbors; for a
neighbor on the recursion stack, look up the connecting arrow
(`arrows.find(...)?.id`) and, when the id is truthy (non-empty), add it to
the cycle set. -/
def dfsNeighbors (arrows : List Edge) (taskId : String)
    (visitFn : String → DfsState → DfsState) :
    List String → DfsState → DfsState
  | [], st => st
  | n :: rest, st =>
    if !(st.visited.contains n) then
      dfsNeighbors arrows taskId visitFn rest (visitFn n st)
    else if st.recStack.contains n then
      let arrowId := (arrows.find? (fun e => e.source == taskId && e.target == n)).map Edge.id
      let st' := match arrowId with
        | some i => if i == "" then st else { st with cycles := st.cycles.insert i }
        | none => st
      dfsNeighbors arrows taskId visitFn rest st'
    else
      dfsNeighbors arrows taskId visitFn rest st

/-- The recursive `dfs` closure of `detectAllCycles`, fuelled.  With fuel
`fuel + 1` it marks `taskId` visited, pushes it on the recursion stack,
processes the adjacency-list neighbors (recursing with fuel `fuel`), and
pops the stack. -/
def dfsVisit (arrows : List Edge) (g : List (String × List String))
    (fuel : Nat) (taskId : String) (st : DfsState) : DfsState :=
  match fuel with
  | 0 => st
  | fuel' + 1 =>
    let st1 : DfsState :=
      { st with visited := taskId :: st.visited, recStack := taskId :: st.recStack }
    let st2 := dfsNeighbors arrows taskId (dfsVisit arrows g fuel') (graphLookup g taskId) st1
    { st2 with recStack := st2.recStack.erase taskId }

/-- All node occurrences (sources and targets) of the arrow list; only its
length is used, as a fuel bound for the traversal. -/
def nodesList (arrows : List Edge) : List String :=
  arrows.foldr (fun a acc => a.source :: a.target :: acc) []

/-- `detectAllCycles` from `src/utils/graphUtils.ts`: build the adjacency
object, run `dfs` from every not-yet-visited key, return the set of detected
back-edge arrow ids. -/
def detectAllCycles (arrows : List Edge) : List String :=
  let g := buildGraph arrows
  let fuel := (nodesList arrows).length + 1
  let finalSt := (objectKeys g).foldl
    (fun st taskId => if st.visited.contains taskId then st else dfsVisit arrows g fuel taskId st)
    ⟨[], [], []⟩
  finalSt.cycles

/-! ## `areAllParentsCompleted` / `hasIncompleteParent` -/

/-- `areAllParentsCompleted` from `src/utils/graphUtils.ts` (the local copy in
`EditModal` is textually identical): true iff there are no incoming arrows or
every incoming arrow's source task is found and completed
(`tasks.find(...)?.data.completed` — a missing task yields `undefined`,
hence `false`). -/
def areAllParentsCompleted (taskId : String) (tasks : List TaskNode) (arrows : List Edge) : Bool :=
  let parentArrows := arrows.filter (fun a => a.target == taskId)
  parentArrows.length == 0 || parentArrows.all (fun a =>
    match tasks.find? (fun n => n.id == a.source) with
    | some n => n.data.completed
    | none => false)

/-- `hasIncompleteParent` from `src/utils/graphUtils.ts`: false unless the
task itself is found and completed; then true iff some incoming arrow's
source task is missing or not completed. -/
def hasIncompleteParent (taskId : String) (tasks : List TaskNode) (arrows : List Edge) : Bool :=
  match tasks.find? (fun t => t.id == taskId) with
  | none => false
  | some t =>
    if !t.data.completed then false
    else (arrows.filter (fun a => a.target == taskId)).any (fun a =>
      match tasks.find? (fun n => n.id == a.source) with
      | some n => !n.data.completed
      | none => true)

/-! ## `updateStyles` -/

/-- A `{ tasks, arrows }` pair: the value returned by `updateStyles` and the
payload of one history entry. -/
structure GraphSnapshot where
  tasks : List TaskNode
  arrows : List Edge
deriving DecidableEq

/-- The arrow callback of `updateStyles`: selected arrows are drawn thick,
cyclic arrows red; the end marker is re-stamped with the stroke color. -/
def styleArrow (cycleArrows : List String) (selectedArrowId : Option String)
    (arrow : Edge) : Edge :=
  let isSelected := some arrow.id == selectedArrowId
  let isCycled := cycleArrows.contains arrow.id
  let strokeColor := if isCycled then "red" else "#000"
  { arrow with
    style := some { stroke := strokeColor, strokeWidth := if isSelected then 3 else 1 },
    markerEnd := some { kind := MarkerKind.arrow, color := some strokeColor } }

/-- The task callback of `updateStyles`: completed tasks get a grey
background; the border is blue when selected, red on a stale completion,
green when ready (not completed, all parents completed), black otherwise. -/
def styleTask (tasks : List TaskNode) (arrows : List Edge) (selectedTaskId : Option String)
    (task : TaskNode) : TaskNode :=
  let allParentsCompleted := areAllParentsCompleted task.id tasks arrows
  let hasIncomplete := hasIncompleteParent task.id tasks arrows
  let isSelected := some task.id == selectedTaskId
  { task with
    style := some {
      background := if task.data.completed then some "#d4d4d4" else none,
      border :=
        if isSelected then "2px solid blue"
        else if hasIncomplete then "2px solid red"
        else if !task.data.completed && allParentsCompleted then "2px solid green"
        else "1px solid black" } }

/-- `updateStyles` from `src/utils/graphUtils.ts`: recompute every arrow's
and task's derived style from the snapshot and the selection. -/
def updateStyles (tasks : List TaskNode) (arrows : List Edge)
    (selectedTaskId : Option String) (selectedArrowId : Option String) : GraphSnapshot :=
  let cycleArrows := detectAllCycles arrows
  { arrows := arrows.map (styleArrow cycleArrows selectedArrowId),
    tasks := tasks.map (styleTask tasks arrows selectedTaskId) }

/-! ## Completion update (`updateTask` / `EditModal.handleSave`) -/

/-- The completion-update rule shared verbatim by `updateTask` in
`FlowContent` and by `EditModal.handleSave`:
`t.data.completed ? completed : canComplete ? completed : false`, where
`canComplete = areAllParentsCompleted(t.id, tasks, arrows)`.  It is a total
function: a blocked upgrade is clamped to `false`, never an exception. -/
def attemptSetCompletion (task : TaskNode) (requested : Bool)
    (tasks : List TaskNode) (arrows : List Edge) : Bool :=
  if task.data.completed then requested
  else if areAllParentsCompleted task.id tasks arrows then requested
  else false

/-! ## Editor state (`FlowContent` in the source) -/

/-- A persisted project (`Project` in `App.tsx`).  `lastSavedAt` and
`viewport` are timestamp/presentation metadata outside every claim and are
not modelled. -/
structure Project where
  localId : String
  title : String
  tasks : List TaskNode
  arrows : List Edge
  taskIdCounter : Nat
deriving DecidableEq

/-- The `sampleProject` constant of `FlowContent`. -/
def sampleProject : Project := {
  localId := "sample-project"
  title := "サンプルプロジェクト"
  tasks := [
    { id := "1", data := { label := "タスク1", completed := false }, position := { x := 300, y := 100 } },
    { id := "2", data := { label := "タスク2", completed := false }, position := { x := 500, y := 200 } },
    { id := "3", data := { label := "タスク3", completed := false }, position := { x := 700, y := 300 } }]
  arrows := [
    { id := "e1", source := "1", target := "2", type := some "straight" },
    { id := "e2", source := "2", target := "3", type := some "straight" }]
  taskIdCounter := 4 }

/-- The `useState`/`useNodesState`/`useEdgesState` cells of `FlowContent`
that the claims touch, as one explicit state record. -/
structure EditorState where
  projects : List Project
  currentProjectIndex : Int
  tasks : List TaskNode
  arrows : List Edge
  arrowType : String
  selectedTaskId : Option String
  selectedArrowId : Option String
  taskIdCounter : Nat
  history : List GraphSnapshot
  historyIndex : Int
deriving DecidableEq

/-- `effectiveProjects`: fall back to the sample project when none exist. -/
def effectiveProjects (s : EditorState) : List Project :=
  if s.projects.isEmpty then [sampleProject] else s.projects

/-- `effectiveIndex`: index `0` into the fallback list when no projects exist. -/
def effectiveIndex (s : EditorState) : Int :=
  if s.projects.isEmpty then 0 else s.currentProjectIndex

/-- `saveToLocalStorage` with the snapshot passed explicitly.  The React
handler reads the render-time `tasks`/`arrows`/`taskIdCounter` captured by
its closure, so callers that have already queued state updates record their
pre-update values; this embedding threads that captured snapshot explicitly.
The function updates the active project, truncates the redo branch of the
history (`history.slice(0, historyIndex + 1)`, equal to this `take` for any
cursor `≥ -1`), appends the snapshot and moves the cursor onto it.
`localStorage` writes and the `lastSavedAt` timestamp are I/O outside the
model. -/
def saveWith (s : EditorState) (tasks : List TaskNode) (arrows : List Edge)
    (taskIdCounter : Nat) : EditorState :=
  let updatedProjects := (effectiveProjects s).mapIdx (fun idx p =>
    if (idx : Int) == effectiveIndex s then
      { p with tasks := tasks, arrows := arrows, taskIdCounter := taskIdCounter }
    else p)
  let newHistory := s.history.take (s.historyIndex + 1).toNat ++ [{ tasks := tasks, arrows := arrows }]
  { s with projects := updatedProjects, history := newHistory,
           historyIndex := (newHistory.length : Int) - 1 }

/-- `saveToLocalStorage` invoked with the live state as its closure sees it. -/
def saveToLocalStorage (s : EditorState) : EditorState :=
  saveWith s s.tasks s.arrows s.taskIdCounter

/-- One "record" step: the caller applies an edit so that the live snapshot
becomes `snap`, then `saveToLocalStorage` runs and records it. -/
def record (s : EditorState) (snap : GraphSnapshot) : EditorState :=
  saveToLocalStorage { s with tasks := snap.tasks, arrows := snap.arrows }

/-- `undo`: when the cursor is positive, step it back and restore that
entry's snapshot.  `history[historyIndex - 1]` is in range whenever the
cursor invariant `-1 ≤ historyIndex < history.length` holds; the
out-of-range fallback (an empty snapshot here, a fault in JS) is never
reached from such states. -/
def undo (s : EditorState) : EditorState :=
  if 0 < s.historyIndex then
    let snap := s.history.getD (s.historyIndex - 1).toNat { tasks := [], arrows := [] }
    { s with historyIndex := s.historyIndex - 1, tasks := snap.tasks, arrows := snap.arrows }
  else s

/-- `redo`: when the cursor is before the last entry, step it forward and
restore that entry's snapshot; otherwise a no-op. -/
def redo (s : EditorState) : EditorState :=
  if s.historyIndex < (s.history.length : Int) - 1 then
    let snap := s.history.getD (s.historyIndex + 1).toNat { tasks := [], arrows := [] }
    { s with historyIndex := s.historyIndex + 1, tasks := snap.tasks, arrows := snap.arrows }
  else s

/-- A reactflow `Connection`: nullable source/target handles. -/
structure Connection where
  source : Option String
  target : Option String
deriving DecidableEq

/-- JS truthiness of a nullable string: `null`/`undefined` and `""` are falsy. -/
def truthyStr : Option String → Bool
  | none => false
  | some s => !(s == "")

/-- `onConnect`: reject missing handles and duplicate `(source, target)`
pairs as no-ops; otherwise append a new arrow with id `` `e${arrows.length + 1}` ``,
restyle, and save (the saved snapshot being the closure's pre-connect one). -/
def onConnect (s : EditorState) (params : Connection) : EditorState :=
  if !(truthyStr params.source) || !(truthyStr params.target) then s
  else
    let src := params.source.getD ""
    let tgt := params.target.getD ""
    let isDuplicate := s.arrows.any (fun a => a.source == src && a.target == tgt)
    if isDuplicate then s
    else
      let newEdge : Edge := {
        id := "e" ++ toString (s.arrows.length + 1),
        source := src, target := tgt,
        type := some s.arrowType,
        markerEnd := some { kind := MarkerKind.arrowClosed } }
      let newArrows := s.arrows ++ [newEdge]
      let styled := updateStyles s.tasks newArrows s.selectedTaskId s.selectedArrowId
      saveWith { s with tasks := styled.tasks, arrows := styled.arrows }
        s.tasks s.arrows s.taskIdCounter

/-- `deleteSelected`: if a task is selected, drop it and every arrow touching
it; else if an arrow is selected, drop it.  Either branch restyles, clears
the selection and saves (the saved snapshot being the closure's pre-delete
one). -/
def deleteSelected (s : EditorState) : EditorState :=
  if truthyStr s.selectedTaskId then
    let sel := s.selectedTaskId.getD ""
    let updatedTasks := s.tasks.filter (fun t => !(t.id == sel))
    let updatedArrows := s.arrows.filter (fun a => !(a.source == sel) && !(a.target == sel))
    let styled := updateStyles updatedTasks updatedArrows none s.selectedArrowId
    saveWith { s with tasks := styled.tasks, arrows := styled.arrows, selectedTaskId := none }
      s.tasks s.arrows s.taskIdCounter
  else if truthyStr s.selectedArrowId then
    let selA := s.selectedArrowId.getD ""
    let updatedArrows := s.arrows.filter (fun a => !(a.id == selA))
    let styled := updateStyles s.tasks updatedArrows none none
    saveWith { s with tasks := styled.tasks, arrows := styled.arrows, selectedArrowId := none }
      s.tasks s.arrows s.taskIdCounter
  else s

/-- `updateTask` (the `EditModal` save callback): rewrite the edited task's
label and clamped completion (`attemptSetCompletion` is that inline rule),
restyle, and save (the saved snapshot being the closure's pre-edit one). -/
def updateTask (s : EditorState) (id : String) (label : String) (completed : Bool) : EditorState :=
  let newTasks := s.tasks.map (fun t =>
    if t.id == id then
      { t with data := { label := label, completed := attemptSetCompletion t completed s.tasks s.arrows } }
    else t)
  let styled := updateStyles newTasks s.arrows s.selectedTaskId s.selectedArrowId
  saveWith { s with tasks := styled.tasks, arrows := styled.arrows }
    s.tasks s.arrows s.taskIdCounter

/-- `handleProjectSwitch`: save the current project (this appends to the
history), blank the canvas, then (in the `setTimeout` body, modelled
sequentially) activate the chosen project: set the index, re-stamp its
arrows with the active routing type, restyle and load its counter.  The
history and cursor are not touched beyond the initial save. -/
def handleProjectSwitch (s : EditorState) (p : Project) : EditorState :=
  let s1 := saveToLocalStorage s
  let s2 := { s1 with tasks := ([] : List TaskNode), arrows := ([] : List Edge) }
  let index := match (effectiveProjects s).findIdx? (fun q => q.localId == p.localId) with
    | some i => (i : Int)
    | none => -1
  let unifiedArrows := p.arrows.map (fun a =>
    { a with type := some s.arrowType, markerEnd := some { kind := MarkerKind.arrowClosed } })
  let styled := updateStyles p.tasks unifiedArrows s.selectedTaskId s.selectedArrowId
  { s2 with currentProjectIndex := index, tasks := styled.tasks, arrows := styled.arrows,
            taskIdCounter := p.taskIdCounter }

/-! ## The dependency relation spelled out by the claims -/

/-- `hasEdge arrows u v`: some arrow runs from `u` to `v`. -/
def hasEdge (arrows : List Edge) (u v : String) : Prop :=
  ∃ a ∈ arrows, a.source = u ∧ a.target = v

/-- The directed graph formed by the arrows' `(source, target)` pairs has a
(nonempty) cycle. -/
def Cyclic (arrows : List Edge) : Prop :=
  ∃ u, Relation.TransGen (hasEdge arrows) u u

/-- Acyclicity of that graph. -/
def Acyclic (arrows : List Edge) : Prop :=
  ∀ u, ¬ Relation.TransGen (hasEdge arrows) u u

/-! ## Invariants of the `detectAllCycles` traversal -/

/-- A node the traversal has completely processed: visited and no longer on
the recursion stack. -/
def finished (st : DfsState) (x : String) : Prop :=
  x ∈ st.visited ∧ x ∉ st.recStack

/-- Every dependency edge leaving a finished node reaches a finished node. -/
def NoFinEscape (arrows : List Edge) (st : DfsState) : Prop :=
  ∀ u v, finished st u → hasEdge arrows u v → finished st v

/-- No cycle passes through a finished node. -/
def FinAcyclic (arrows : List Edge) (st : DfsState) : Prop :=
  ∀ u, finished st u → ¬ Relation.TransGen (hasEdge arrows) u u

/-- The invariant bundle of the traversal state: the recursion stack is
contained in the visited set and forms a path in the graph (newest first);
any recorded back edge witnesses a cycle; and as long as no back edge has
been recorded, finished nodes are closed under edges and cycle-free. -/
def StInv (arrows : List Edge) (st : DfsState) : Prop :=
  (∀ x ∈ st.recStack, x ∈ st.visited) ∧
  List.Chain' (fun a b => hasEdge arrows b a) st.recStack ∧
  (st.cycles = [] ∨ Cyclic arrows) ∧
  (st.cycles ≠ [] ∨ (NoFinEscape arrows st ∧ FinAcyclic arrows st))

/-- Number of known nodes not yet in the visited list: the measure showing
the traversal's fuel never runs out. -/
def unvisCard (arrows : List Edge) (visited : List String) : Nat :=
  ((nodesList arrows).toFinset.filter (fun x => x ∉ visited)).card

/-- Precondition of one `dfs` call: the node is known and unvisited, there is
fuel to spare, a stack-top predecessor has an edge to it, and the state
invariant holds. -/
def VisitPre (arrows : List Edge) (fuel : Nat) (t : String) (st : DfsState) : Prop :=
  t ∉ st.visited ∧
  t ∈ (nodesList arrows).toFinset ∧
  unvisCard arrows st.visited < fuel ∧
  (∀ c, st.recStack.head? = some c → hasEdge arrows c t) ∧
  StInv arrows st

/-- Postcondition of one `dfs` call: visited grows, the target is visited,
the recursion stack is restored exactly, recorded cycles persist, and the
invariant holds again. -/
def VisitPost (arrows : List Edge) (st st' : DfsState) (t : String) : Prop :=
  (∀ x ∈ st.visited, x ∈ st'.visited) ∧
  t ∈ st'.visited ∧
  st'.recStack = st.recStack ∧
  (∀ c ∈ st.cycles, c ∈ st'.cycles) ∧
  StInv arrows st'

/-- Postcondition of the neighbor loop: like `VisitPost`, and additionally
every processed neighbor ends up finished unless a back edge was recorded. -/
def NeighborsPost (arrows : List Edge) (st st' : DfsState) (ns : List String) : Prop :=
  (∀ x ∈ st.visited, x ∈ st'.visited) ∧
  st'.recStack = st.recStack ∧
  (∀ c ∈ st.cycles, c ∈ st'.cycles) ∧
  StInv arrows st' ∧
  (∀ n ∈ ns, finished st' n ∨ st'.cycles ≠ [])

/-! ## Core projections (derived style fields stripped) -/

/-- Everything of a task except the derived `style` field. -/
def taskCore (t : TaskNode) : String × TaskNodeData × Position :=
  (t.id, t.data, t.position)

/-- Everything of an arrow except the derived `style`/`markerEnd` fields. -/
def edgeCore (a : Edge) : String × String × String × Option String :=
  (a.id, a.source, a.target, a.type)

/-! ## Concrete inputs used by witnesses and counterexamples -/

/-- The spec scenario `1→2, 2→3, 3→1`. -/
def c3Arrows : List Edge :=
  [{ id := "e1", source := "1", target := "2" },
   { id := "e2", source := "2", target := "3" },
   { id := "e3", source := "3", target := "1" }]

/-- A self-loop arrow whose id is the empty string (falsy in JS). -/
def emptyIdSelfLoop : Edge := { id := "", source := "1", target := "1" }

/-- A completed task with id `1`. -/
def doneTask : TaskNode :=
  { id := "1", data := { label := "t1", completed := true }, position := { x := 0, y := 0 } }

/-- A not-completed task with id `2`. -/
def todoTask : TaskNode :=
  { id := "2", data := { label := "t2", completed := false }, position := { x := 0, y := 0 } }

/-- A dependency arrow `1 → 2`. -/
def parentArrow : Edge := { id := "p", source := "1", target := "2" }

/-- An editor state on the sample project with empty history. -/
def emptyHistoryState : EditorState := {
  projects := [sampleProject], currentProjectIndex := 0,
  tasks := sampleProject.tasks, arrows := sampleProject.arrows,
  arrowType := "straight", selectedTaskId := none, selectedArrowId := none,
  taskIdCounter := 4, history := [], historyIndex := -1 }

/-- The same state with arrow `e1` selected. -/
def arrowSelectedState : EditorState := { emptyHistoryState with selectedArrowId := some "e1" }

/-- The same state with task `2` selected. -/
def taskSelectedState : EditorState := { emptyHistoryState with selectedTaskId := some "2" }

/-- Three pairwise distinct history snapshots. -/
def snapshotA : GraphSnapshot := { tasks := [], arrows := [] }

/-- Second distinct snapshot. -/
def snapshotB : GraphSnapshot := { tasks := [doneTask], arrows := [] }

/-- Third distinct snapshot. -/
def snapshotC : GraphSnapshot := { tasks := [], arrows := [parentArrow] }

/-! ## Helper lemmas -/

/-- Lookup in the empty adjacency object. -/
theorem graphLookup_nil (k : String) : graphLookup [] k = [] := rfl

/-- Lookup through one association-list entry. -/
theorem graphLookup_cons (a : String) (ts : List String) (g : List (String × List String))
    (k : String) :
    graphLookup ((a, ts) :: g) k = if k = a then ts else graphLookup g k := by
  simp only [graphLookup, List.find?_cons]
  by_cases h : k = a
  · subst h; simp
  · have hne : (a == k) = false := by
      simp only [beq_eq_false_iff_ne]
      exact Ne.symm h
    simp [hne, h]

/-- Effect of inserting one arrow on a lookup. -/
theorem graphLookup_addArrow (g : List (String × List String)) (src tgt k : String) :
    graphLookup (addArrowToGraph g src tgt) k
      = if k = src then graphLookup g k ++ [tgt] else graphLookup g k := by
  induction g with
  | nil =>
    simp only [addArrowToGraph, graphLookup_cons]
    by_cases h : k = src <;> simp [h, graphLookup_nil]
  | cons p rest ih =>
    obtain ⟨a, ts⟩ := p
    by_cases has : a = src
    · subst has
      have hbeq : (a == a) = true := by simp
      simp only [addArrowToGraph, hbeq, if_true, graphLookup_cons]
      by_cases hk : k = a <;> simp [hk]
    · have hbeq : (a == src) = false := by
        simp only [beq_eq_false_iff_ne]; exact has
      simp only [addArrowToGraph, hbeq, Bool.false_eq_true, if_false, graphLookup_cons, ih]
      by_cases hk : k = a
      · subst hk
        have : ¬ k = src := has
        simp [this]
      · simp [hk]

/-- The adjacency list of a key collects the targets of its arrows, in order. -/
theorem graphLookup_buildGraph (arrows : List Edge) (k : String) :
    graphLookup (buildGraph arrows) k
      = (arrows.filter (fun a => a.source == k)).map Edge.target := by
  suffices h : ∀ (l : List Edge) (g : List (String × List String)),
      graphLookup (l.foldl (fun g a => addArrowToGraph g a.source a.target) g) k
        = graphLookup g k ++ (l.filter (fun a => a.source == k)).map Edge.target by
    simpa [buildGraph, graphLookup_nil] using h arrows []
  intro l
  induction l with
  | nil => intro g; simp
  | cons a l ih =>
    intro g
    rw [List.foldl_cons, ih, graphLookup_addArrow]
    by_cases h : a.source = k
    · have h1 : k = a.source := h.symm
      have h3 : (a.source == k) = true := by simp [h]
      simp [h1, h3, List.filter_cons, List.append_assoc]
    · have h2 : ¬ (k = a.source) := fun hh => h hh.symm
      have h3 : (a.source == k) = false := by simp only [beq_eq_false_iff_ne]; exact h
      simp [h2, h3, List.filter_cons]

/-- Key membership after inserting one arrow. -/
theorem mem_keys_addArrow (g : List (String × List String)) (src tgt k : String) :
    k ∈ (addArrowToGraph g src tgt).map Prod.fst ↔ k ∈ g.map Prod.fst ∨ k = src := by
  induction g with
  | nil => simp [addArrowToGraph]
  | cons p rest ih =>
    obtain ⟨a, ts⟩ := p
    by_cases has : a = src
    · subst has
      have hbeq : (a == a) = true := by simp
      simp only [addArrowToGraph, hbeq, if_true, List.map_cons, List.mem_cons]
      constructor
      · rintro (h | h)
        · exact Or.inl (Or.inl h)
        · exact Or.inl (Or.inr h)
      · rintro ((h | h) | h)
        · exact Or.inl h
        · exact Or.inr h
        · exact Or.inl h
    · have hbeq : (a == src) = false := by simp only [beq_eq_false_iff_ne]; exact has
      simp only [addArrowToGraph, hbeq, Bool.false_eq_true, if_false, List.map_cons,
        List.mem_cons, ih]
      tauto

/-- The adjacency object keys are exactly the arrow sources. -/
theorem mem_keys_buildGraph (arrows : List Edge) (k : String) :
    k ∈ (buildGraph arrows).map Prod.fst ↔ ∃ a ∈ arrows, a.source = k := by
  suffices h : ∀ (l : List Edge) (g : List (String × List String)),
      k ∈ (l.foldl (fun g a => addArrowToGraph g a.source a.target) g).map Prod.fst
        ↔ k ∈ g.map Prod.fst ∨ ∃ a ∈ l, a.source = k by
    simpa [buildGraph] using h arrows []
  intro l
  induction l with
  | nil => intro g; simp
  | cons a l ih =>
    intro g
    rw [List.foldl_cons, ih, mem_keys_addArrow]
    constructor
    · rintro ((h | h) | ⟨b, hb, hbs⟩)
      · exact Or.inl h
      · exact Or.inr ⟨a, List.mem_cons_self a l, h.symm⟩
      · exact Or.inr ⟨b, List.mem_cons_of_mem a hb, hbs⟩
    · rintro (h | ⟨b, hb, hbs⟩)
      · exact Or.inl (Or.inl h)
      · rcases List.mem_cons.mp hb with rfl | hb'
        · exact Or.inl (Or.inr hbs.symm)
        · exact Or.inr ⟨b, hb', hbs⟩

/-- Insertion-sort step preserves membership. -/
theorem mem_insertKeyByVal (x y : String) (l : List String) :
    y ∈ insertKeyByVal x l ↔ y = x ∨ y ∈ l := by
  induction l with
  | nil => simp [insertKeyByVal]
  | cons a l ih =>
    by_cases h : keyVal x ≤ keyVal a
    · simp [insertKeyByVal, h, List.mem_cons]
    · simp only [insertKeyByVal, h, if_false, List.mem_cons, ih]
      tauto

/-- Sorting the numeric keys preserves membership. -/
theorem mem_sortKeysByVal (y : String) (l : List String) :
    y ∈ sortKeysByVal l ↔ y ∈ l := by
  induction l with
  | nil => simp [sortKeysByVal]
  | cons a l ih =>
    simp only [sortKeysByVal, List.foldr_cons] at ih ⊢
    rw [mem_insertKeyByVal]
    simp [ih]

/-- Key enumeration covers exactly the keys of the object. -/
theorem mem_objectKeys (g : List (String × List String)) (k : String) :
    k ∈ objectKeys g ↔ k ∈ g.map Prod.fst := by
  simp only [objectKeys, List.mem_append, mem_sortKeysByVal, List.mem_filter]
  constructor
  · rintro (⟨h, -⟩ | ⟨h, -⟩) <;> exact h
  · intro h
    by_cases hn : (arrayIndexKey k).isSome
    · exact Or.inl ⟨h, hn⟩
    · refine Or.inr ⟨h, ?_⟩
      cases harr : arrayIndexKey k
      · rfl
      · exact absurd (by simp [harr]) hn

/-- The node list collects exactly the arrow endpoints. -/
theorem mem_nodesList (arrows : List Edge) (x : String) :
    x ∈ nodesList arrows ↔ ∃ a ∈ arrows, a.source = x ∨ a.target = x := by
  induction arrows with
  | nil => simp [nodesList]
  | cons a l ih =>
    simp only [nodesList, List.foldr_cons, List.mem_cons] at ih ⊢
    constructor
    · rintro (h | h | h)
      · exact ⟨a, Or.inl rfl, Or.inl h.symm⟩
      · exact ⟨a, Or.inl rfl, Or.inr h.symm⟩
      · obtain ⟨b, hb, hx⟩ := ih.mp h
        exact ⟨b, Or.inr hb, hx⟩
    · rintro ⟨b, (rfl | hb), hx⟩
      · rcases hx with h | h
        · exact Or.inl h.symm
        · exact Or.inr (Or.inl h.symm)
      · exact Or.inr (Or.inr (ih.mpr ⟨b, hb, hx⟩))

/-- An edge from t to v exists iff v is in the adjacency list of t. -/
theorem hasEdge_iff_mem_lookup (arrows : List Edge) (t v : String) :
    hasEdge arrows t v ↔ v ∈ graphLookup (buildGraph arrows) t := by
  rw [graphLookup_buildGraph]
  constructor
  · rintro ⟨a, ha, hs, ht⟩
    exact List.mem_map.mpr ⟨a, List.mem_filter.mpr ⟨ha, by simp [hs]⟩, ht⟩
  · intro h
    obtain ⟨a, ha, hat⟩ := List.mem_map.mp h
    have := List.mem_filter.mp ha
    exact ⟨a, this.1, by simpa using this.2, hat⟩

/-- The unvisited count never grows when visited grows. -/
theorem unvisCard_mono (arrows : List Edge) (v v' : List String)
    (h : ∀ x ∈ v, x ∈ v') : unvisCard arrows v' ≤ unvisCard arrows v := by
  apply Finset.card_le_card
  intro x hx
  have hx' := Finset.mem_filter.mp hx
  refine Finset.mem_filter.mpr ⟨hx'.1, fun hmem => hx'.2 (h x hmem)⟩

/-- Visiting a known fresh node strictly shrinks the unvisited count. -/
theorem unvisCard_push_lt (arrows : List Edge) (v : List String) (t : String)
    (ht : t ∈ (nodesList arrows).toFinset) (hv : t ∉ v) :
    unvisCard arrows (t :: v) < unvisCard arrows v := by
  apply Finset.card_lt_card
  constructor
  · intro x hx
    have hx' := Finset.mem_filter.mp hx
    refine Finset.mem_filter.mpr ⟨hx'.1, fun hmem => hx'.2 (List.mem_cons_of_mem t hmem)⟩
  · intro hsub
    have hmem : t ∈ (nodesList arrows).toFinset.filter (fun x => x ∉ v) :=
      Finset.mem_filter.mpr ⟨ht, hv⟩
    have := Finset.mem_filter.mp (hsub hmem)
    exact this.2 (List.mem_cons_self t v)

/-- The unvisited count is bounded by the node-list length. -/
theorem unvisCard_le_fuel (arrows : List Edge) (v : List String) :
    unvisCard arrows v ≤ (nodesList arrows).length := by
  calc unvisCard arrows v ≤ (nodesList arrows).toFinset.card := Finset.card_filter_le _ _
    _ ≤ (nodesList arrows).length := List.toFinset_card_le _

/-- Every member of a stacked path reaches the stack top. -/
theorem chain_mem_transGen (arrows : List Edge) :
    ∀ (t : String) (tail : List String),
      List.Chain' (fun a b => hasEdge arrows b a) (t :: tail) →
      ∀ n ∈ t :: tail, n = t ∨ Relation.TransGen (hasEdge arrows) n t := by
  intro t tail
  induction tail generalizing t with
  | nil => intro _ n hn; simp at hn; exact Or.inl hn
  | cons c rest ih =>
    intro hchain n hn
    have hct : hasEdge arrows c t := (List.chain'_cons.mp hchain).1
    have hchain' : List.Chain' (fun a b => hasEdge arrows b a) (c :: rest) :=
      (List.chain'_cons.mp hchain).2
    rcases List.mem_cons.mp hn with rfl | hn'
    · exact Or.inl rfl
    · rcases ih c hchain' n hn' with rfl | htg
      · exact Or.inr (Relation.TransGen.single hct)
      · exact Or.inr (htg.tail hct)

/-- Finished nodes are closed under reachability when no edge escapes them. -/
theorem finished_of_reflTransGen (arrows : List Edge) (st : DfsState)
    (h : NoFinEscape arrows st) {x y : String} (hx : finished st x)
    (hr : Relation.ReflTransGen (hasEdge arrows) x y) : finished st y := by
  induction hr with
  | refl => exact hx
  | tail _ e ih => exact h _ _ ih e

/-- A transitive step has a first edge. -/
theorem transGen_exists_first {α : Type} {r : α → α → Prop} {a b : α}
    (h : Relation.TransGen r a b) : ∃ c, r a c := by
  induction h with
  | single e => exact ⟨_, e⟩
  | tail _ _ ih => exact ih

/-- When an edge from t to n exists, the find call locates a matching arrow. -/
theorem find_backedge (arrows : List Edge) (t n : String) (h : hasEdge arrows t n) :
    ∃ e, arrows.find? (fun e => e.source == t && e.target == n) = some e ∧
      e ∈ arrows ∧ e.source = t ∧ e.target = n := by
  obtain ⟨a, ha, hs, htg⟩ := h
  have hsome : (arrows.find? (fun e => e.source == t && e.target == n)).isSome := by
    rw [List.find?_isSome]
    exact ⟨a, ha, by simp [hs, htg]⟩
  obtain ⟨e, he⟩ := Option.isSome_iff_exists.mp hsome
  have hmem := List.mem_of_find?_eq_some he
  have hpred := List.find?_some he
  simp only [Bool.and_eq_true, beq_iff_eq] at hpred
  exact ⟨e, he, hmem, hpred.1, hpred.2⟩

/-- Pushing a fresh node changes no finished-ness. -/
theorem finished_push_iff (st : DfsState) (t : String) (hvis : t ∉ st.visited) (x : String) :
    finished { st with visited := t :: st.visited, recStack := t :: st.recStack } x
      ↔ finished st x := by
  simp only [finished, List.mem_cons, not_or]
  constructor
  · rintro ⟨hv | hv, hne, hns⟩
    · exact absurd (hv ▸ hvis) (fun h => h (False.elim (hne hv)))
    · exact ⟨hv, hns⟩
  · rintro ⟨hv, hns⟩
    have hne : x ≠ t := fun h => hvis (h ▸ hv)
    exact ⟨Or.inr hv, hne, hns⟩

/-- The invariant survives marking a fresh node visited and pushing it. -/
theorem StInv_push (arrows : List Edge) (st : DfsState) (t : String)
    (hInv : StInv arrows st) (hvis : t ∉ st.visited)
    (hpush : ∀ c, st.recStack.head? = some c → hasEdge arrows c t) :
    StInv arrows { st with visited := t :: st.visited, recStack := t :: st.recStack } := by
  obtain ⟨hsub, hchain, hsound, hgood⟩ := hInv
  refine ⟨?_, ?_, hsound, ?_⟩
  · intro x hx
    rcases List.mem_cons.mp hx with rfl | hx'
    · exact List.mem_cons_self x st.visited
    · exact List.mem_cons_of_mem t (hsub x hx')
  · cases hrec : st.recStack with
    | nil => simp
    | cons c tl =>
      rw [List.chain'_cons]
      refine ⟨hpush c (by rw [hrec]; rfl), hrec ▸ hchain⟩
  · rcases hgood with hne | ⟨hNFE, hFA⟩
    · exact Or.inl hne
    · refine Or.inr ⟨?_, ?_⟩
      · intro u v hu he
        rw [finished_push_iff st t hvis] at hu ⊢
        exact hNFE u v hu he
      · intro u hu
        rw [finished_push_iff st t hvis] at hu
        exact hFA u hu

/-- A back edge into the recursion stack closes a cycle. -/
theorem cyclic_of_backedge (arrows : List Edge) (st : DfsState) (t n : String)
    (tail : List String) (hchain : List.Chain' (fun a b => hasEdge arrows b a) st.recStack)
    (hrec : st.recStack = t :: tail) (hn : n ∈ st.recStack) (hedge : hasEdge arrows t n) :
    Cyclic arrows := by
  rw [hrec] at hchain hn
  rcases chain_mem_transGen arrows t tail hchain n hn with rfl | htg
  · exact ⟨n, Relation.TransGen.single hedge⟩
  · exact ⟨n, htg.tail hedge⟩

/-- The invariant survives popping a node whose successors are all finished, and the popped node is finished. -/
theorem StInv_pop (arrows : List Edge) (st2 : DfsState) (t : String) (tail : List String)
    (hrec : st2.recStack = t :: tail)
    (hInv : StInv arrows st2)
    (htvis : t ∈ st2.visited)
    (htail : t ∉ tail)
    (hsucc : ∀ n ∈ graphLookup (buildGraph arrows) t, finished st2 n ∨ st2.cycles ≠ []) :
    StInv arrows { st2 with recStack := tail } ∧ finished { st2 with recStack := tail } t := by
  obtain ⟨hsub, hchain, hsound, hgood⟩ := hInv
  have hfin_t : finished { st2 with recStack := tail } t := ⟨htvis, htail⟩
  refine ⟨⟨?_, ?_, hsound, ?_⟩, hfin_t⟩
  · intro x hx
    exact hsub x (by rw [hrec]; exact List.mem_cons_of_mem t hx)
  · have := hchain
    rw [hrec] at this
    exact this.tail
  · rcases hgood with hne | ⟨hNFE, hFA⟩
    · exact Or.inl hne
    · by_cases hcyc : st2.cycles = []
      case neg => exact Or.inl hcyc
      case pos =>
      have hsuccfin : ∀ n ∈ graphLookup (buildGraph arrows) t, finished st2 n := by
        intro n hn
        rcases hsucc n hn with h | h
        · exact h
        · exact absurd hcyc h
      have hfin_iff : ∀ x, finished { st2 with recStack := tail } x ↔ finished st2 x ∨ x = t := by
        intro x
        simp only [finished]
        constructor
        · rintro ⟨hv, hns⟩
          by_cases hx : x = t
          · exact Or.inr hx
          · refine Or.inl ⟨hv, ?_⟩
            rw [hrec]
            intro hmem
            rcases List.mem_cons.mp hmem with h | h
            · exact hx h
            · exact hns h
        · rintro (⟨hv, hns⟩ | rfl)
          · refine ⟨hv, fun hmem => hns ?_⟩
            rw [hrec]
            exact List.mem_cons_of_mem t hmem
          · exact ⟨htvis, htail⟩
      refine Or.inr ⟨?_, ?_⟩
      · intro u v hu he
        rcases (hfin_iff u).mp hu with hu' | rfl
        · exact (hfin_iff v).mpr (Or.inl (hNFE u v hu' he))
        · have hv : v ∈ graphLookup (buildGraph arrows) u :=
            (hasEdge_iff_mem_lookup arrows u v).mp he
          exact (hfin_iff v).mpr (Or.inl (hsuccfin v hv))
      · intro u hu
        rcases (hfin_iff u).mp hu with hu' | rfl
        · exact hFA u hu'
        · intro hT
          obtain ⟨x, hux, hxr⟩ := Relation.TransGen.head'_iff.mp hT
          have hx_succ : x ∈ graphLookup (buildGraph arrows) u :=
            (hasEdge_iff_mem_lookup arrows u x).mp hux
          have hxfin : finished st2 x := hsuccfin x hx_succ
          have hufin : finished st2 u :=
            finished_of_reflTransGen arrows st2 hNFE hxfin hxr
          have : u ∉ st2.recStack := hufin.2
          rw [hrec] at this
          exact this (List.mem_cons_self u tail)

/-- Main specification of the neighbor loop, given the specification of one-level-smaller recursive calls. -/
theorem dfsNeighbors_master (arrows : List Edge)
    (hids : ∀ a ∈ arrows, a.id ≠ "") (fuel : Nat)
    (IH : ∀ (u : String) (st : DfsState), VisitPre arrows fuel u st →
      VisitPost arrows st (dfsVisit arrows (buildGraph arrows) fuel u st) u) :
    ∀ (ns : List String) (t : String) (tail : List String) (st : DfsState),
      (∀ n ∈ ns, hasEdge arrows t n) →
      (∀ n ∈ ns, n ∈ (nodesList arrows).toFinset) →
      unvisCard arrows st.visited < fuel →
      st.recStack = t :: tail →
      StInv arrows st →
      NeighborsPost arrows st
        (dfsNeighbors arrows t (dfsVisit arrows (buildGraph arrows) fuel) ns st) ns := by
  intro ns
  induction ns with
  | nil =>
    intro t tail st hedges hnodes hfuel hrec hInv
    simp only [dfsNeighbors]
    exact ⟨fun x hx => hx, rfl, fun c hc => hc, hInv, by simp⟩
  | cons n rest ihrest =>
    intro t tail st hedges hnodes hfuel hrec hInv
    have hedge_n : hasEdge arrows t n := hedges n (List.mem_cons_self n rest)
    have hnode_n : n ∈ (nodesList arrows).toFinset := hnodes n (List.mem_cons_self n rest)
    have hedges' : ∀ m ∈ rest, hasEdge arrows t m := fun m hm => hedges m (List.mem_cons_of_mem n hm)
    have hnodes' : ∀ m ∈ rest, m ∈ (nodesList arrows).toFinset :=
      fun m hm => hnodes m (List.mem_cons_of_mem n hm)
    have ht_vis : t ∈ st.visited := hInv.1 t (by rw [hrec]; exact List.mem_cons_self t tail)
    by_cases hvis : n ∈ st.visited
    · have hcont : st.visited.contains n = true := by simpa using hvis
      by_cases hrecn : n ∈ st.recStack
      · -- back-edge detection
        have hcontr : st.recStack.contains n = true := by simpa using hrecn
        obtain ⟨e, hfind, hemem, hes, het⟩ := find_backedge arrows t n hedge_n
        have hide : e.id ≠ "" := hids e hemem
        have heq : (e.id == "") = false := by simpa using hide
        have hstep : dfsNeighbors arrows t (dfsVisit arrows (buildGraph arrows) fuel) (n :: rest) st
            = dfsNeighbors arrows t (dfsVisit arrows (buildGraph arrows) fuel) rest
                { st with cycles := st.cycles.insert e.id } := by
          simp only [dfsNeighbors, hcont, Bool.not_true, Bool.false_eq_true, if_false, hcontr,
            if_true, hfind, Option.map_some', heq]
        rw [hstep]
        have hcyc : Cyclic arrows :=
          cyclic_of_backedge arrows st t n tail hInv.2.1 hrec hrecn hedge_n
        have hInv' : StInv arrows { st with cycles := st.cycles.insert e.id } := by
          obtain ⟨hsub, hchain, _, _⟩ := hInv
          exact ⟨hsub, hchain, Or.inr hcyc,
            Or.inl (List.ne_nil_of_mem (List.mem_insert_self e.id st.cycles))⟩
        have hpost := ihrest t tail { st with cycles := st.cycles.insert e.id }
          hedges' hnodes' hfuel hrec hInv'
        obtain ⟨hmono, hrec', hcmono, hInv'', hfin⟩ := hpost
        refine ⟨hmono, hrec', ?_, hInv'', ?_⟩
        · intro c hc
          exact hcmono c (List.mem_insert_of_mem hc)
        · intro m hm
          rcases List.mem_cons.mp hm with rfl | hm'
          · exact Or.inr (List.ne_nil_of_mem (hcmono e.id (List.mem_insert_self e.id st.cycles)))
          · exact hfin m hm'
      · -- visited, not on stack: already finished
        have hcontr : st.recStack.contains n = false := by simpa using hrecn
        have hstep : dfsNeighbors arrows t (dfsVisit arrows (buildGraph arrows) fuel) (n :: rest) st
            = dfsNeighbors arrows t (dfsVisit arrows (buildGraph arrows) fuel) rest st := by
          simp only [dfsNeighbors, hcont, Bool.not_true, Bool.false_eq_true, if_false, hcontr]
        rw [hstep]
        have hpost := ihrest t tail st hedges' hnodes' hfuel hrec hInv
        obtain ⟨hmono, hrec', hcmono, hInv'', hfin⟩ := hpost
        refine ⟨hmono, hrec', hcmono, hInv'', ?_⟩
        intro m hm
        rcases List.mem_cons.mp hm with rfl | hm'
        · refine Or.inl ⟨hmono m hvis, ?_⟩
          rw [hrec']
          exact hrecn
        · exact hfin m hm'
    · -- unvisited: recurse into dfs
      have hcont : st.visited.contains n = false := by simpa using hvis
      have hstep : dfsNeighbors arrows t (dfsVisit arrows (buildGraph arrows) fuel) (n :: rest) st
          = dfsNeighbors arrows t (dfsVisit arrows (buildGraph arrows) fuel) rest
              (dfsVisit arrows (buildGraph arrows) fuel n st) := by
        simp only [dfsNeighbors, hcont, Bool.not_false, if_true]
      rw [hstep]
      have hpre : VisitPre arrows fuel n st := by
        refine ⟨hvis, hnode_n, hfuel, ?_, hInv⟩
        intro c hc
        rw [hrec] at hc
        have : c = t := by simpa using hc.symm
        rw [this]
        exact hedge_n
      obtain ⟨hvmono, hnvis, hvrec, hvcyc, hvInv⟩ := IH n st hpre
      set st1 := dfsVisit arrows (buildGraph arrows) fuel n st with hst1
      have hfuel1 : unvisCard arrows st1.visited < fuel :=
        lt_of_le_of_lt (unvisCard_mono arrows st.visited st1.visited hvmono) hfuel
      have hrec1 : st1.recStack = t :: tail := by rw [hvrec, hrec]
      have hpost := ihrest t tail st1 hedges' hnodes' hfuel1 hrec1 hvInv
      obtain ⟨hmono, hrec', hcmono, hInv'', hfin⟩ := hpost
      refine ⟨fun x hx => hmono x (hvmono x hx), by rw [hrec', hrec1, hrec], ?_, hInv'', ?_⟩
      · intro c hc
        exact hcmono c (hvcyc c hc)
      · intro m hm
        rcases List.mem_cons.mp hm with rfl | hm'
        · refine Or.inl ⟨hmono m hnvis, ?_⟩
          rw [hrec', hrec1]
          intro hmem
          rcases List.mem_cons.mp hmem with rfl | hmem'
          · exact hvis ht_vis
          · exact hvis (hInv.1 m (by rw [hrec]; exact List.mem_cons_of_mem t hmem'))
        · exact hfin m hm'

/-- Main specification of the traversal: with adequate fuel it establishes the postcondition. -/
theorem dfsVisit_master (arrows : List Edge) (hids : ∀ a ∈ arrows, a.id ≠ "") :
    ∀ (fuel : Nat) (t : String) (st : DfsState), VisitPre arrows fuel t st →
      VisitPost arrows st (dfsVisit arrows (buildGraph arrows) fuel t st) t := by
  intro fuel
  induction fuel with
  | zero =>
    intro t st hpre
    exact absurd hpre.2.2.1 (by omega)
  | succ fuel ih =>
    intro t st hpre
    obtain ⟨hnvis, hnode, hfuel, hpush, hInv⟩ := hpre
    have hInv1 : StInv arrows { st with visited := t :: st.visited, recStack := t :: st.recStack } :=
      StInv_push arrows st t hInv hnvis hpush
    have hfuel1 : unvisCard arrows (t :: st.visited) < fuel := by
      have hlt := unvisCard_push_lt arrows st.visited t hnode hnvis
      omega
    have hedges : ∀ n ∈ graphLookup (buildGraph arrows) t, hasEdge arrows t n :=
      fun n hn => (hasEdge_iff_mem_lookup arrows t n).mpr hn
    have hnodes : ∀ n ∈ graphLookup (buildGraph arrows) t, n ∈ (nodesList arrows).toFinset := by
      intro n hn
      obtain ⟨a, ha, hs, ht'⟩ := (hasEdge_iff_mem_lookup arrows t n).mpr hn
      rw [List.mem_toFinset, mem_nodesList]
      exact ⟨a, ha, Or.inr ht'⟩
    have hN := dfsNeighbors_master arrows hids fuel ih (graphLookup (buildGraph arrows) t)
      t st.recStack { st with visited := t :: st.visited, recStack := t :: st.recStack }
      hedges hnodes hfuel1 rfl hInv1
    obtain ⟨hmono, hrecN, hcyc, hInv2, hfin⟩ := hN
    set st2 := dfsNeighbors arrows t (dfsVisit arrows (buildGraph arrows) fuel)
      (graphLookup (buildGraph arrows) t)
      { st with visited := t :: st.visited, recStack := t :: st.recStack } with hst2
    have hrec2 : st2.recStack = t :: st.recStack := hrecN
    have herase : st2.recStack.erase t = st.recStack := by
      rw [hrec2]; exact List.erase_cons_head t st.recStack
    have htvis2 : t ∈ st2.visited := hmono t (List.mem_cons_self t st.visited)
    have httail : t ∉ st.recStack := fun h => hnvis (hInv.1 t h)
    have hpop := StInv_pop arrows st2 t st.recStack hrec2 hInv2 htvis2 httail hfin
    have hgoal : dfsVisit arrows (buildGraph arrows) (fuel + 1) t st
        = { st2 with recStack := st2.recStack.erase t } := by
      simp only [dfsVisit]
    rw [hgoal, herase]
    refine ⟨?_, htvis2, rfl, ?_, hpop.1⟩
    · intro x hx
      exact hmono x (List.mem_cons_of_mem t hx)
    · intro c hc
      exact hcyc c hc

/-- Specification of the top-level loop over the object keys: every root ends visited with an empty stack and the invariant intact. -/
theorem detectLoop_master (arrows : List Edge) (hids : ∀ a ∈ arrows, a.id ≠ "") :
    ∀ (roots : List String) (st : DfsState),
      (∀ k ∈ roots, k ∈ (nodesList arrows).toFinset) →
      st.recStack = [] →
      StInv arrows st →
      (∀ x ∈ st.visited, x ∈ (roots.foldl (fun st taskId =>
          if st.visited.contains taskId then st
          else dfsVisit arrows (buildGraph arrows) ((nodesList arrows).length + 1) taskId st)
          st).visited) ∧
      (roots.foldl (fun st taskId =>
          if st.visited.contains taskId then st
          else dfsVisit arrows (buildGraph arrows) ((nodesList arrows).length + 1) taskId st)
          st).recStack = [] ∧
      (∀ c ∈ st.cycles, c ∈ (roots.foldl (fun st taskId =>
          if st.visited.contains taskId then st
          else dfsVisit arrows (buildGraph arrows) ((nodesList arrows).length + 1) taskId st)
          st).cycles) ∧
      StInv arrows (roots.foldl (fun st taskId =>
          if st.visited.contains taskId then st
          else dfsVisit arrows (buildGraph arrows) ((nodesList arrows).length + 1) taskId st)
          st) ∧
      (∀ k ∈ roots, k ∈ (roots.foldl (fun st taskId =>
          if st.visited.contains taskId then st
          else dfsVisit arrows (buildGraph arrows) ((nodesList arrows).length + 1) taskId st)
          st).visited) := by
  intro roots
  induction roots with
  | nil =>
    intro st hroots hrec hInv
    exact ⟨fun x hx => hx, hrec, fun c hc => hc, hInv, by simp⟩
  | cons k rest ih =>
    intro st hroots hrec hInv
    have hknode : k ∈ (nodesList arrows).toFinset := hroots k (List.mem_cons_self k rest)
    have hroots' : ∀ m ∈ rest, m ∈ (nodesList arrows).toFinset :=
      fun m hm => hroots m (List.mem_cons_of_mem k hm)
    rw [List.foldl_cons]
    by_cases hvis : k ∈ st.visited
    · have hcont : st.visited.contains k = true := by simpa using hvis
      rw [if_pos hcont]
      have hpost := ih st hroots' hrec hInv
      obtain ⟨hmono, hrec', hcyc, hInv', hall⟩ := hpost
      refine ⟨hmono, hrec', hcyc, hInv', ?_⟩
      intro m hm
      rcases List.mem_cons.mp hm with rfl | hm'
      · exact hmono m hvis
      · exact hall m hm'
    · have hcont : st.visited.contains k = false := by simpa using hvis
      rw [if_neg (by simpa using hvis)]
      have hfuel : unvisCard arrows st.visited < (nodesList arrows).length + 1 := by
        have := unvisCard_le_fuel arrows st.visited
        omega
      have hpre : VisitPre arrows ((nodesList arrows).length + 1) k st := by
        refine ⟨hvis, hknode, hfuel, ?_, hInv⟩
        intro c hc
        rw [hrec] at hc
        exact absurd hc (by simp)
      obtain ⟨hvmono, hkvis, hvrec, hvcyc, hvInv⟩ :=
        dfsVisit_master arrows hids ((nodesList arrows).length + 1) k st hpre
      have hrec1 : (dfsVisit arrows (buildGraph arrows) ((nodesList arrows).length + 1) k st).recStack
          = [] := by rw [hvrec, hrec]
      have hpost := ih (dfsVisit arrows (buildGraph arrows) ((nodesList arrows).length + 1) k st)
        hroots' hrec1 hvInv
      obtain ⟨hmono, hrec', hcyc, hInv', hall⟩ := hpost
      refine ⟨fun x hx => hmono x (hvmono x hx), hrec', fun c hc => hcyc c (hvcyc c hc), hInv', ?_⟩
      intro m hm
      rcases List.mem_cons.mp hm with rfl | hm'
      · exact hmono m hkvis
      · exact hall m hm'

/-- The adjacency object only depends on the core fields of the arrows. -/
theorem buildGraph_congr (arrows arrows' : List Edge)
    (h : arrows.map edgeCore = arrows'.map edgeCore) :
    buildGraph arrows = buildGraph arrows' := by
  suffices hgen : ∀ (l l' : List Edge), l.map edgeCore = l'.map edgeCore →
      ∀ g, l.foldl (fun g a => addArrowToGraph g a.source a.target) g
        = l'.foldl (fun g a => addArrowToGraph g a.source a.target) g by
    exact hgen arrows arrows' h []
  intro l
  induction l with
  | nil =>
    intro l' h g
    cases l' with
    | nil => rfl
    | cons b l' => simp at h
  | cons a l ih =>
    intro l' h g
    cases l' with
    | nil => simp at h
    | cons b l' =>
      simp only [List.map_cons, List.cons.injEq] at h
      obtain ⟨hab, htl⟩ := h
      simp only [edgeCore, Prod.mk.injEq] at hab
      rw [List.foldl_cons, List.foldl_cons, hab.2.1, hab.2.2.1]
      exact ih l' htl _

/-- The node list only depends on the core fields of the arrows. -/
theorem nodesList_congr (arrows arrows' : List Edge)
    (h : arrows.map edgeCore = arrows'.map edgeCore) :
    nodesList arrows = nodesList arrows' := by
  induction arrows generalizing arrows' with
  | nil =>
    cases arrows' with
    | nil => rfl
    | cons b l' => simp at h
  | cons a l ih =>
    cases arrows' with
    | nil => simp at h
    | cons b l' =>
      simp only [List.map_cons, List.cons.injEq] at h
      obtain ⟨hab, htl⟩ := h
      simp only [edgeCore, Prod.mk.injEq] at hab
      simp only [nodesList, List.foldr_cons, hab.2.1, hab.2.2.1]
      have := ih l' htl
      simp only [nodesList] at this
      rw [this]

/-- The back-edge id lookup only depends on the core fields of the arrows. -/
theorem find_id_congr (arrows arrows' : List Edge)
    (h : arrows.map edgeCore = arrows'.map edgeCore) (s n : String) :
    (arrows.find? (fun e => e.source == s && e.target == n)).map Edge.id
      = (arrows'.find? (fun e => e.source == s && e.target == n)).map Edge.id := by
  induction arrows generalizing arrows' with
  | nil =>
    cases arrows' with
    | nil => rfl
    | cons b l' => simp at h
  | cons a l ih =>
    cases arrows' with
    | nil => simp at h
    | cons b l' =>
      simp only [List.map_cons, List.cons.injEq] at h
      obtain ⟨hab, htl⟩ := h
      simp only [edgeCore, Prod.mk.injEq] at hab
      rw [List.find?_cons, List.find?_cons, hab.2.1, hab.2.2.1]
      by_cases hp : (b.source == s && b.target == n) = true
      · simp [hp, hab.1]
      · simp only [hp, Bool.false_eq_true, if_false]
        exact ih l' htl

/-- The neighbor loop is unchanged under arrow lists with equal cores and pointwise-equal visit functions. -/
theorem dfsNeighbors_congr (arrows arrows' : List Edge) (t : String)
    (hfind : ∀ s n, (arrows.find? (fun e => e.source == s && e.target == n)).map Edge.id
      = (arrows'.find? (fun e => e.source == s && e.target == n)).map Edge.id)
    (v v' : String → DfsState → DfsState) (hv : ∀ n st, v n st = v' n st) :
    ∀ (ns : List String) (st : DfsState),
      dfsNeighbors arrows t v ns st = dfsNeighbors arrows' t v' ns st := by
  intro ns
  induction ns with
  | nil => intro st; rfl
  | cons n rest ih =>
    intro st
    simp only [dfsNeighbors]
    rw [hfind t n, hv n st]
    by_cases h1 : st.visited.contains n <;> by_cases h2 : st.recStack.contains n <;>
      simp [h1, h2, ih]

/-- The traversal is unchanged under arrow lists with equal cores. -/
theorem dfsVisit_congr (arrows arrows' : List Edge)
    (hfind : ∀ s n, (arrows.find? (fun e => e.source == s && e.target == n)).map Edge.id
      = (arrows'.find? (fun e => e.source == s && e.target == n)).map Edge.id)
    (g : List (String × List String)) :
    ∀ (fuel : Nat) (t : String) (st : DfsState),
      dfsVisit arrows g fuel t st = dfsVisit arrows' g fuel t st := by
  intro fuel
  induction fuel with
  | zero => intro t st; rfl
  | succ fuel ih =>
    intro t st
    simp only [dfsVisit]
    rw [dfsNeighbors_congr arrows arrows' t hfind _ _ (fun n st => ih n st)]

/-- Cycle detection only depends on the id, source, target and type fields of the arrows. -/
theorem detectAllCycles_congr (arrows arrows' : List Edge)
    (h : arrows.map edgeCore = arrows'.map edgeCore) :
    detectAllCycles arrows = detectAllCycles arrows' := by
  have hg : buildGraph arrows = buildGraph arrows' := buildGraph_congr arrows arrows' h
  have hn : nodesList arrows = nodesList arrows' := nodesList_congr arrows arrows' h
  have hfind := find_id_congr arrows arrows' h
  simp only [detectAllCycles, hg, hn]
  have hfun : (fun (st : DfsState) (taskId : String) =>
      if st.visited.contains taskId then st
      else dfsVisit arrows (buildGraph arrows') ((nodesList arrows').length + 1) taskId st)
      = (fun (st : DfsState) (taskId : String) =>
      if st.visited.contains taskId then st
      else dfsVisit arrows' (buildGraph arrows') ((nodesList arrows').length + 1) taskId st) := by
    funext st taskId
    by_cases hv : st.visited.contains taskId <;>
      simp [hv, dfsVisit_congr arrows arrows' hfind]
  rw [hfun]

/-- The all-quantifier respects pointwise equal predicates. -/
theorem list_all_congr {α : Type} {p q : α → Bool} :
    ∀ l : List α, (∀ a ∈ l, p a = q a) → l.all p = l.all q
  | [], _ => rfl
  | a :: l, h => by
    simp only [List.all_cons, h a (List.mem_cons_self a l),
      list_all_congr l fun b hb => h b (List.mem_cons_of_mem a hb)]

/-- The any-quantifier respects pointwise equal predicates. -/
theorem list_any_congr {α : Type} {p q : α → Bool} :
    ∀ l : List α, (∀ a ∈ l, p a = q a) → l.any p = l.any q
  | [], _ => rfl
  | a :: l, h => by
    simp only [List.any_cons, h a (List.mem_cons_self a l),
      list_any_congr l fun b hb => h b (List.mem_cons_of_mem a hb)]

/-- Filtering by target commutes with a target-preserving map. -/
theorem filter_target_map (arrows : List Edge) (fa : Edge → Edge) (tid : String)
    (hfa : ∀ a, (fa a).target = a.target) :
    (arrows.map fa).filter (fun a => a.target == tid)
      = (arrows.filter (fun a => a.target == tid)).map fa := by
  induction arrows with
  | nil => rfl
  | cons a l ih =>
    simp only [List.map_cons, List.filter_cons, hfa a]
    by_cases h : (a.target == tid) = true
    · simp [h, ih]
    · simp [h, ih]

/-- Finding by id commutes with an id-preserving map. -/
theorem find_id_map (tasks : List TaskNode) (ft : TaskNode → TaskNode) (src : String)
    (hft : ∀ t, (ft t).id = t.id) :
    (tasks.map ft).find? (fun n => n.id == src)
      = (tasks.find? (fun n => n.id == src)).map ft := by
  induction tasks with
  | nil => rfl
  | cons t l ih =>
    simp only [List.map_cons, List.find?_cons, hft t]
    by_cases h : (t.id == src) = true
    · simp [h]
    · simp [h, ih]

/-- The parent-completion predicate ignores derived style fields. -/
theorem areAllParentsCompleted_styled (tid : String) (tasks : List TaskNode)
    (arrows : List Edge) (ft : TaskNode → TaskNode) (fa : Edge → Edge)
    (hft : ∀ t, (ft t).id = t.id) (hftd : ∀ t, (ft t).data = t.data)
    (hfa : ∀ a, (fa a).target = a.target) (hfas : ∀ a, (fa a).source = a.source) :
    areAllParentsCompleted tid (tasks.map ft) (arrows.map fa)
      = areAllParentsCompleted tid tasks arrows := by
  unfold areAllParentsCompleted
  rw [filter_target_map arrows fa tid hfa]
  simp only [List.length_map]
  congr 1
  rw [List.all_map]
  apply list_all_congr
  intro a ha
  rw [Function.comp_apply, hfas a, find_id_map tasks ft a.source hft]
  cases tasks.find? (fun n => n.id == a.source) with
  | none => rfl
  | some n => simp [hftd n]

/-- The stale-completion predicate ignores derived style fields. -/
theorem hasIncompleteParent_styled (tid : String) (tasks : List TaskNode)
    (arrows : List Edge) (ft : TaskNode → TaskNode) (fa : Edge → Edge)
    (hft : ∀ t, (ft t).id = t.id) (hftd : ∀ t, (ft t).data = t.data)
    (hfa : ∀ a, (fa a).target = a.target) (hfas : ∀ a, (fa a).source = a.source) :
    hasIncompleteParent tid (tasks.map ft) (arrows.map fa)
      = hasIncompleteParent tid tasks arrows := by
  unfold hasIncompleteParent
  rw [find_id_map tasks ft tid hft]
  cases tasks.find? (fun t => t.id == tid) with
  | none => rfl
  | some t =>
    simp only [Option.map_some', hftd t]
    by_cases hc : (!t.data.completed) = true
    · simp [hc]
    · simp only [hc, Bool.false_eq_true, if_false]
      rw [filter_target_map arrows fa tid hfa, List.any_map]
      apply list_any_congr
      intro a ha
      rw [Function.comp_apply, hfas a, find_id_map tasks ft a.source hft]
      cases tasks.find? (fun n => n.id == a.source) with
      | none => rfl
      | some n => simp [hftd n]

/-- Restyling a styled task is the identity once the derived predicates agree. -/
theorem styleTask_restyle (tasks TS : List TaskNode) (arrows AS : List Edge)
    (selT : Option String) (t : TaskNode)
    (h1 : areAllParentsCompleted t.id TS AS = areAllParentsCompleted t.id tasks arrows)
    (h2 : hasIncompleteParent t.id TS AS = hasIncompleteParent t.id tasks arrows) :
    styleTask TS AS selT (styleTask tasks arrows selT t) = styleTask tasks arrows selT t := by
  simp only [styleTask, h1, h2]

/-! ## Claim theorems -/

/-- C1 (confirmed): the completion-update logic of updateTask and EditModal.handleSave. An already-completed task gets exactly the requested value; a not-completed task requested to complete becomes completed exactly when all its parents are completed, and a request of false stays false. The function is total, so no exception arises. -/
theorem attemptSetCompletion_spec (t : TaskNode) (tasks : List TaskNode) (arrows : List Edge)
    (req : Bool) :
    (t.data.completed = true → attemptSetCompletion t req tasks arrows = req) ∧
    (t.data.completed = false → attemptSetCompletion t true tasks arrows
        = areAllParentsCompleted t.id tasks arrows) ∧
    (t.data.completed = false → attemptSetCompletion t false tasks arrows = false) := by
  refine ⟨fun h => ?_, fun h => ?_, fun h => ?_⟩
  · simp [attemptSetCompletion, h]
  · cases hc : areAllParentsCompleted t.id tasks arrows <;> simp [attemptSetCompletion, h, hc]
  · cases hc : areAllParentsCompleted t.id tasks arrows <;> simp [attemptSetCompletion, h, hc]

/-- Witness for C1 at concrete inputs. -/
theorem attemptSetCompletion_spec_witness :
    doneTask.data.completed = true ∧
    attemptSetCompletion doneTask false [doneTask] [] = false ∧
    todoTask.data.completed = false ∧
    attemptSetCompletion todoTask true [doneTask] [parentArrow]
      = areAllParentsCompleted todoTask.id [doneTask] [parentArrow] :=
  ⟨rfl, (attemptSetCompletion_spec doneTask [doneTask] [] false).1 rfl, rfl,
   (attemptSetCompletion_spec todoTask [doneTask] [parentArrow] true).2.1 rfl⟩

/-- C2 (counterexample): the claim that detectAllCycles returns the empty set iff the graph is acyclic fails as stated. A self-loop arrow whose id is the empty string is a cycle, yet the JS truthiness guard on the found id drops the empty id and the function returns the empty set. -/
theorem detectAllCycles_emptyId_cex :
    detectAllCycles [emptyIdSelfLoop] = [] ∧ ¬ Acyclic [emptyIdSelfLoop] := by
  refine ⟨by decide, fun h => ?_⟩
  exact h "1" (Relation.TransGen.single ⟨emptyIdSelfLoop, List.mem_cons_self _ _, rfl, rfl⟩)

/-- C2 (corrected): for every arrow sequence in which every arrow id is a nonempty string, detectAllCycles returns the empty set iff the directed graph formed by the (source, target) pairs of the arrows is acyclic. -/
theorem detectAllCycles_empty_iff_acyclic (arrows : List Edge)
    (hids : ∀ a ∈ arrows, a.id ≠ "") :
    detectAllCycles arrows = [] ↔ Acyclic arrows := by
  have hroots : ∀ k ∈ objectKeys (buildGraph arrows), k ∈ (nodesList arrows).toFinset := by
    intro k hk
    rw [mem_objectKeys] at hk
    obtain ⟨a, ha, hs⟩ := (mem_keys_buildGraph arrows k).mp hk
    rw [List.mem_toFinset, mem_nodesList]
    exact ⟨a, ha, Or.inl hs⟩
  have hInv0 : StInv arrows (⟨[], [], []⟩ : DfsState) := by
    refine ⟨by simp, by simp, Or.inl rfl, Or.inr ⟨?_, ?_⟩⟩
    · intro u v hu _
      exact absurd hu.1 (List.not_mem_nil u)
    · intro u hu
      exact absurd hu.1 (List.not_mem_nil u)
  obtain ⟨hmono, hrecF, hcycF, hInvF, hvisF⟩ :=
    detectLoop_master arrows hids (objectKeys (buildGraph arrows)) (⟨[], [], []⟩ : DfsState) hroots rfl hInv0
  have hdet : detectAllCycles arrows
      = ((objectKeys (buildGraph arrows)).foldl (fun st taskId =>
          if st.visited.contains taskId then st
          else dfsVisit arrows (buildGraph arrows) ((nodesList arrows).length + 1) taskId st)
          (⟨[], [], []⟩ : DfsState)).cycles := rfl
  constructor
  · intro hempty u hcyc
    rcases hInvF.2.2.2 with hne | ⟨hNFE, hFA⟩
    · rw [hdet] at hempty
      exact hne hempty
    · obtain ⟨x, hux⟩ := transGen_exists_first hcyc
      have hukey : u ∈ (buildGraph arrows).map Prod.fst := by
        rw [mem_keys_buildGraph]
        obtain ⟨a, ha, hs, -⟩ := hux
        exact ⟨a, ha, hs⟩
      have huroot : u ∈ objectKeys (buildGraph arrows) := (mem_objectKeys _ u).mpr hukey
      have huvis := hvisF u huroot
      have hufin : finished ((objectKeys (buildGraph arrows)).foldl (fun st taskId =>
          if st.visited.contains taskId then st
          else dfsVisit arrows (buildGraph arrows) ((nodesList arrows).length + 1) taskId st)
          (⟨[], [], []⟩ : DfsState)) u := by
        refine ⟨huvis, ?_⟩
        rw [hrecF]
        exact List.not_mem_nil u
      exact hFA u hufin hcyc
  · intro hacyc
    rcases hInvF.2.2.1 with h | hcyc
    · rw [hdet]
      exact h
    · obtain ⟨u, hu⟩ := hcyc
      exact absurd hu (hacyc u)

/-- Witness for C2: the three-cycle has nonempty ids and a cycle, so the result is nonempty. -/
theorem detectAllCycles_empty_iff_acyclic_witness :
    (∀ a ∈ c3Arrows, a.id ≠ "") ∧ detectAllCycles c3Arrows ≠ [] := by
  have hids : ∀ a ∈ c3Arrows, a.id ≠ "" := by decide
  refine ⟨hids, fun h => ?_⟩
  have hacyc := (detectAllCycles_empty_iff_acyclic c3Arrows hids).mp h
  have e1 : hasEdge c3Arrows "1" "2" :=
    ⟨{ id := "e1", source := "1", target := "2" }, by simp [c3Arrows], rfl, rfl⟩
  have e2 : hasEdge c3Arrows "2" "3" :=
    ⟨{ id := "e2", source := "2", target := "3" }, by simp [c3Arrows], rfl, rfl⟩
  have e3 : hasEdge c3Arrows "3" "1" :=
    ⟨{ id := "e3", source := "3", target := "1" }, by simp [c3Arrows], rfl, rfl⟩
  exact hacyc "1" (Relation.TransGen.head e1 (Relation.TransGen.head e2
    (Relation.TransGen.single e3)))

/-- C3 (corrected): on the arrows 1-to-2, 2-to-3, 3-to-1, detectAllCycles returns exactly the singleton with the back-edge arrow id e3 (the arrow from 3 to 1), not all three ids. -/
theorem detectAllCycles_three_cycle : detectAllCycles c3Arrows = ["e3"] := by decide

/-- C3 (counterexample): the ids e1 and e2 are not in the result, refuting the claim that all three arrow ids are returned. -/
theorem detectAllCycles_three_cycle_cex :
    "e1" ∉ detectAllCycles c3Arrows ∧ "e2" ∉ detectAllCycles c3Arrows := by decide

/-- C4 (counterexample): handleProjectSwitch does not reset the undo/redo history. From a state with empty history, after a switch the history is not empty and the cursor is not back at the initial value of minus one. -/
theorem handleProjectSwitch_history_cex :
    ¬ ((handleProjectSwitch emptyHistoryState sampleProject).history = [] ∧
       (handleProjectSwitch emptyHistoryState sampleProject).historyIndex = -1) := by
  decide

/-- C4 (corrected): on every project switch the history is not cleared. handleProjectSwitch truncates the redo branch, appends the pre-switch snapshot (via its initial saveToLocalStorage), leaves the history nonempty and puts the cursor on the new last entry. -/
theorem handleProjectSwitch_appends (s : EditorState) (p : Project) :
    (handleProjectSwitch s p).history
      = s.history.take (s.historyIndex + 1).toNat ++ [{ tasks := s.tasks, arrows := s.arrows }] ∧
    (handleProjectSwitch s p).history ≠ [] ∧
    (handleProjectSwitch s p).historyIndex
      = ((handleProjectSwitch s p).history.length : Int) - 1 := by
  refine ⟨rfl, by simp [handleProjectSwitch, saveToLocalStorage, saveWith], ?_⟩
  simp [handleProjectSwitch, saveToLocalStorage, saveWith]

/-- C5 (confirmed): from an empty history, after record A, record B, undo, record C the entries are exactly A then C with the cursor at index one pointing at C, and a following redo changes nothing at all. -/
theorem history_scenario (s0 : EditorState) (A B C : GraphSnapshot)
    (h1 : s0.history = []) (h2 : s0.historyIndex = -1) :
    (record (undo (record (record s0 A) B)) C).history = [A, C] ∧
    (record (undo (record (record s0 A) B)) C).historyIndex = 1 ∧
    (record (undo (record (record s0 A) B)) C).history.getD 1 { tasks := [], arrows := [] } = C ∧
    redo (record (undo (record (record s0 A) B)) C) = record (undo (record (record s0 A) B)) C := by
  simp [record, saveToLocalStorage, saveWith, undo, redo, h1, h2]

/-- Witness for C5 at concrete snapshots. -/
theorem history_scenario_witness :
    emptyHistoryState.history = [] ∧ emptyHistoryState.historyIndex = -1 ∧
    (record (undo (record (record emptyHistoryState snapshotA) snapshotB)) snapshotC).history
      = [snapshotA, snapshotC] :=
  ⟨rfl, rfl, (history_scenario emptyHistoryState snapshotA snapshotB snapshotC rfl rfl).1⟩

/-- C6 (confirmed): with distinct task ids (the data-model invariant), areAllParentsCompleted is true iff every incoming arrow has a source task that exists and is completed; in particular an incoming arrow whose source id matches no task forces the result to false, never vacuously true. -/
theorem areAllParentsCompleted_iff (taskId : String) (tasks : List TaskNode) (arrows : List Edge)
    (hids : (tasks.map TaskNode.id).Nodup) :
    (areAllParentsCompleted taskId tasks arrows = true ↔
      ∀ a ∈ arrows, a.target = taskId →
        ∃ n ∈ tasks, n.id = a.source ∧ n.data.completed = true) ∧
    (∀ a ∈ arrows, a.target = taskId → (¬ ∃ n ∈ tasks, n.id = a.source) →
      areAllParentsCompleted taskId tasks arrows = false) := by
  have key : areAllParentsCompleted taskId tasks arrows = true ↔
      ∀ a ∈ arrows, a.target = taskId →
        ∃ n ∈ tasks, n.id = a.source ∧ n.data.completed = true := by
    unfold areAllParentsCompleted
    simp only [Bool.or_eq_true, beq_iff_eq, List.length_eq_zero, List.all_eq_true,
      List.mem_filter]
    constructor
    · rintro (hnil | hall)
      · intro a ha hat
        have : a ∈ arrows.filter (fun a => a.target == taskId) := by
          simp [List.mem_filter, ha, hat]
        rw [hnil] at this
        exact absurd this (List.not_mem_nil a)
      · intro a ha hat
        have := hall a ⟨ha, by simp [hat]⟩
        cases hfind : tasks.find? (fun n => n.id == a.source) with
        | none => rw [hfind] at this; exact absurd this (by simp)
        | some n =>
          rw [hfind] at this
          refine ⟨n, List.mem_of_find?_eq_some hfind, ?_, this⟩
          have := List.find?_some hfind
          simpa using this
    · intro hall
      right
      rintro a ⟨ha, hat⟩
      obtain ⟨m, hm, hmid, hmc⟩ := hall a ha (by simpa using hat)
      cases hfind : tasks.find? (fun n => n.id == a.source) with
      | none =>
        rw [List.find?_eq_none] at hfind
        exact absurd (by simp [hmid] : (fun n => n.id == a.source) m = true) (by simpa using hfind m hm)
      | some n =>
        have hn : n ∈ tasks := List.mem_of_find?_eq_some hfind
        have hnid : n.id = a.source := by simpa using List.find?_some hfind
        have : n = m := List.inj_on_of_nodup_map hids hn hm (by rw [hnid, hmid])
        rw [this]
        exact hmc
  refine ⟨key, fun a ha hat hno => ?_⟩
  cases hv : areAllParentsCompleted taskId tasks arrows
  · rfl
  · obtain ⟨n, hn, hnid, -⟩ := key.mp hv a ha hat
    exact absurd ⟨n, hn, hnid⟩ hno

/-- Witness for C6 at concrete inputs. -/
theorem areAllParentsCompleted_iff_witness :
    (([doneTask] : List TaskNode).map TaskNode.id).Nodup ∧
    areAllParentsCompleted "2" [doneTask] [parentArrow] = true :=
  ⟨by decide,
   (areAllParentsCompleted_iff "2" [doneTask] [parentArrow] (by decide)).1.mpr (by decide)⟩

/-- C7 (confirmed): updateStyles is idempotent — applied to its own output with the same selection it returns that output unchanged, hence identical derived style fields — and deterministic. -/
theorem updateStyles_idem_det (tasks : List TaskNode) (arrows : List Edge)
    (selT selA : Option String) :
    (updateStyles (updateStyles tasks arrows selT selA).tasks
        (updateStyles tasks arrows selT selA).arrows selT selA
      = updateStyles tasks arrows selT selA) ∧
    updateStyles tasks arrows selT selA = updateStyles tasks arrows selT selA := by
  refine ⟨?_, rfl⟩
  have hRarrows : (updateStyles tasks arrows selT selA).arrows
      = arrows.map (styleArrow (detectAllCycles arrows) selA) := rfl
  have hRtasks : (updateStyles tasks arrows selT selA).tasks
      = tasks.map (styleTask tasks arrows selT) := rfl
  have hcore : (arrows.map (styleArrow (detectAllCycles arrows) selA)).map edgeCore
      = arrows.map edgeCore := by
    rw [List.map_map]
    exact List.map_congr_left fun a _ => rfl
  have hdet : detectAllCycles (arrows.map (styleArrow (detectAllCycles arrows) selA))
      = detectAllCycles arrows :=
    detectAllCycles_congr _ _ hcore
  have harr : (arrows.map (styleArrow (detectAllCycles arrows) selA)).map
      (styleArrow (detectAllCycles (arrows.map (styleArrow (detectAllCycles arrows) selA))) selA)
      = arrows.map (styleArrow (detectAllCycles arrows) selA) := by
    rw [hdet, List.map_map]
    exact List.map_congr_left fun a _ => rfl
  have htask : (tasks.map (styleTask tasks arrows selT)).map
      (styleTask (tasks.map (styleTask tasks arrows selT))
        (arrows.map (styleArrow (detectAllCycles arrows) selA)) selT)
      = tasks.map (styleTask tasks arrows selT) := by
    rw [List.map_map]
    refine List.map_congr_left fun t _ => ?_
    refine styleTask_restyle tasks _ arrows _ selT t ?_ ?_
    · exact areAllParentsCompleted_styled t.id tasks arrows _ _
        (fun _ => rfl) (fun _ => rfl) (fun _ => rfl) (fun _ => rfl)
    · exact hasIncompleteParent_styled t.id tasks arrows _ _
        (fun _ => rfl) (fun _ => rfl) (fun _ => rfl) (fun _ => rfl)
  show ({ arrows := _, tasks := _ } : GraphSnapshot) = _
  rw [hRarrows, hRtasks]
  exact congrArg₂ (fun a b => ({ arrows := a, tasks := b } : GraphSnapshot)) harr htask

/-- C8 (confirmed): onConnect with a (source, target) pair equal to that of an existing arrow is a no-op. The whole editor state, in particular the task list, arrow list and history, is unchanged and no error is raised. -/
theorem onConnect_duplicate_noop (s : EditorState) (params : Connection)
    (h : ∃ a ∈ s.arrows, params.source = some a.source ∧ params.target = some a.target) :
    onConnect s params = s := by
  obtain ⟨a, ha, hs, ht⟩ := h
  unfold onConnect
  by_cases h1 : (!(truthyStr params.source) || !(truthyStr params.target)) = true
  · simp [h1]
  · have hdup : s.arrows.any
        (fun b => b.source == params.source.getD "" && b.target == params.target.getD "") = true := by
      refine List.any_eq_true.mpr ⟨a, ha, ?_⟩
      rw [hs, ht]
      simp
    simp [h1, hdup]

/-- Witness for C8: connecting 1-to-2 on the sample project, where arrow e1 already runs from 1 to 2. -/
theorem onConnect_duplicate_noop_witness :
    (∃ a ∈ emptyHistoryState.arrows,
        (some "1" : Option String) = some a.source ∧ (some "2" : Option String) = some a.target) ∧
    onConnect emptyHistoryState { source := some "1", target := some "2" } = emptyHistoryState :=
  ⟨by decide, onConnect_duplicate_noop emptyHistoryState { source := some "1", target := some "2" }
    (by decide)⟩

/-- C9 (code bug): arrow-id collision after a deletion. Starting from the sample project, deleting arrow e1 and then connecting 1-to-3 assigns the new arrow the id e2, which already names the surviving arrow from 2 to 3; the arrow list ends with a duplicated id. -/
theorem onConnect_id_collision :
    ("e2" ∈ (deleteSelected arrowSelectedState).arrows.map Edge.id) ∧
    ((onConnect (deleteSelected arrowSelectedState)
        { source := some "1", target := some "3" }).arrows.map Edge.id) = ["e2", "e2"] ∧
    ¬ ((onConnect (deleteSelected arrowSelectedState)
        { source := some "1", target := some "3" }).arrows.map Edge.id).Nodup := by
  refine ⟨by decide, by decide, by decide⟩

/-- C10 (confirmed): deleting the selected task removes exactly that task and every arrow touching it — everything else is kept up to derived style fields, captured by the core projections — no remaining arrow references the deleted id, and any endpoint present among the original task ids is still present among the remaining ones, so deletion never introduces a dangling reference. -/
theorem deleteSelected_task_spec (s : EditorState) (sel : String)
    (h1 : s.selectedTaskId = some sel) (h2 : ¬ sel = "") :
    ((deleteSelected s).tasks.map taskCore
        = (s.tasks.filter (fun t => !(t.id == sel))).map taskCore) ∧
    ((deleteSelected s).arrows.map edgeCore
        = (s.arrows.filter (fun a => !(a.source == sel) && !(a.target == sel))).map edgeCore) ∧
    (∀ a ∈ (deleteSelected s).arrows, a.source ≠ sel ∧ a.target ≠ sel) ∧
    (∀ a ∈ (deleteSelected s).arrows,
      (a.source ∈ s.tasks.map TaskNode.id → a.source ∈ (deleteSelected s).tasks.map TaskNode.id) ∧
      (a.target ∈ s.tasks.map TaskNode.id → a.target ∈ (deleteSelected s).tasks.map TaskNode.id)) := by
  have htr : truthyStr (some sel) = true := by
    simpa [truthyStr] using h2
  have hts : (deleteSelected s).tasks
      = (s.tasks.filter (fun t => !(t.id == sel))).map
          (styleTask (s.tasks.filter (fun t => !(t.id == sel)))
            (s.arrows.filter (fun a => !(a.source == sel) && !(a.target == sel))) none) := by
    simp [deleteSelected, htr, h1, updateStyles, saveWith]
  have has : (deleteSelected s).arrows
      = (s.arrows.filter (fun a => !(a.source == sel) && !(a.target == sel))).map
          (styleArrow
            (detectAllCycles (s.arrows.filter (fun a => !(a.source == sel) && !(a.target == sel))))
            s.selectedArrowId) := by
    simp [deleteSelected, htr, h1, updateStyles, saveWith]
  have hids : (deleteSelected s).tasks.map TaskNode.id
      = (s.tasks.filter (fun t => !(t.id == sel))).map TaskNode.id := by
    rw [hts, List.map_map]
    exact List.map_congr_left fun t _ => rfl
  refine ⟨?_, ?_, ?_, ?_⟩
  · rw [hts, List.map_map]
    exact List.map_congr_left fun t _ => rfl
  · rw [has, List.map_map]
    exact List.map_congr_left fun a _ => rfl
  · intro a ha
    rw [has] at ha
    obtain ⟨b, hb, rfl⟩ := List.mem_map.mp ha
    have := (List.mem_filter.mp hb).2
    simp only [Bool.and_eq_true, Bool.not_eq_true', beq_eq_false_iff_ne] at this
    exact ⟨this.1, this.2⟩
  · intro a ha
    have hane : a.source ≠ sel ∧ a.target ≠ sel := by
      rw [has] at ha
      obtain ⟨b, hb, rfl⟩ := List.mem_map.mp ha
      have := (List.mem_filter.mp hb).2
      simp only [Bool.and_eq_true, Bool.not_eq_true', beq_eq_false_iff_ne] at this
      exact ⟨this.1, this.2⟩
    constructor
    · intro hmem
      rw [hids]
      obtain ⟨t, ht, hta⟩ := List.mem_map.mp hmem
      refine List.mem_map.mpr ⟨t, List.mem_filter.mpr ⟨ht, ?_⟩, hta⟩
      simp [hta, hane.1]
    · intro hmem
      rw [hids]
      obtain ⟨t, ht, hta⟩ := List.mem_map.mp hmem
      refine List.mem_map.mpr ⟨t, List.mem_filter.mpr ⟨ht, ?_⟩, hta⟩
      simp [hta, hane.2]

/-- Witness for C10 at a concrete state with task 2 selected. -/
theorem deleteSelected_task_spec_witness :
    taskSelectedState.selectedTaskId = some "2" ∧
    (∀ a ∈ (deleteSelected taskSelectedState).arrows, a.source ≠ "2" ∧ a.target ≠ "2") :=
  ⟨rfl, (deleteSelected_task_spec taskSelectedState "2" rfl (by decide)).2.2.1⟩

end CainTask
